import Mathlib

/-!
Shallow embedding of `src/main.rs` of rusty-grep, a small grep-like
command line utility.  Strings are modelled as `List Char`.  The source
uses the Rust `regex` crate only on patterns produced by `regex::escape`,
so the compiled regular expression always denotes the literal pattern,
optionally wrapped in word boundaries (`\b ... \b`) and optionally
case-insensitive (`(?i)`); its matching semantics on such expressions is
modelled explicitly below.  The crate's folding and word class are Unicode
aware; the model implements their restrictions to ASCII (folding) and to
the code points below `U+0100` (word class), and the theorems quantify
only over text on which model and crate coincide.
-/

namespace RustyGrep

/-- Mirror of the clap-derived `Args` struct (src/main.rs, lines 12-48). -/
structure Args where
  pattern : List Char
  file : List (List Char)
  show_line_numbers : Bool
  case_insensitive : Bool
  invert_match : Bool
  count : Bool
  files_with_matches : Bool
  whole_words : Bool
  color : List Char

/-- Case folding used to model the regex `(?i)` flag on an escaped literal.
The crate performs Unicode simple case folding; this definition implements
its restriction to ASCII (`A`-`Z` fold to `a`-`z`, everything else is
fixed), which coincides with the crate exactly on ASCII text.  Every
theorem below that turns `case_insensitive` on therefore restricts the
pattern and the line to ASCII; with the flag off, `fold false` is the
identity and no restriction is needed. -/
def fold : Bool → Char → Char
  | true, c => c.toLower
  | false, c => c

/-- One character of the line matches one character of the escaped literal
pattern, up to case when the regex was compiled with `(?i)`. -/
def charMatches (ci : Bool) (a b : Char) : Bool :=
  decide (fold ci a = fold ci b)

/-- The escaped literal pattern matches at the very start of `s` (it is a
case-folded prefix of `s`). -/
def listMatchesAt (ci : Bool) : List Char → List Char → Bool
  | [], _ => true
  | _ :: _, [] => false
  | a :: p, b :: s => charMatches ci a b && listMatchesAt ci p s

/-- The Latin-1 word characters of the regex crate beyond ASCII: its word
boundary `\b` uses the Unicode word class, whose members below `U+0100`
other than `[A-Za-z0-9_]` are the letters `ª µ º À-Ö Ø-ö ø-ÿ` (the
code points `0xAA`, `0xB5`, `0xBA`, `0xC0`-`0xD6`, `0xD8`-`0xF6`,
`0xF8`-`0xFF`; `×` and `÷` are symbols, not letters). -/
def latinOneExtra (c : Char) : Bool :=
  decide (c.toNat = 0xAA) || decide (c.toNat = 0xB5) || decide (c.toNat = 0xBA) ||
    (decide (0xC0 ≤ c.toNat) && decide (c.toNat ≤ 0xD6)) ||
    (decide (0xD8 ≤ c.toNat) && decide (c.toNat ≤ 0xF6)) ||
    (decide (0xF8 ≤ c.toNat) && decide (c.toNat ≤ 0xFF))

/-- Word characters of the regex crate's word boundary `\b` (src/main.rs
line 74 builds `\b<escaped>\b`).  The crate's class is Unicode's `\w`; this
definition implements its restriction to the code points below `U+0100`:
`[A-Za-z0-9_]` together with the Latin-1 letters.  It coincides with the
crate exactly on such text, and the whole-word theorems below restrict
their lines accordingly. -/
def wordChar (c : Char) : Bool := c.isAlphanum || decide (c = '_') || latinOneExtra c

/-- Spec-side word class of the whole-word claim, exactly the ASCII set
`[A-Za-z0-9_]` named by the claim and the spec. -/
def asciiWordChar (c : Char) : Bool := c.isAlphanum || decide (c = '_')

/-- Spec-side word-ness of an optional character (edges are non-word). -/
def asciiIsWordOpt : Option Char → Bool
  | none => false
  | some c => asciiWordChar c

/-- Spec-side word boundary: a transition between a `[A-Za-z0-9_]` character
and a non-word character or a string edge. -/
def asciiWordB (a b : Option Char) : Bool := asciiIsWordOpt a != asciiIsWordOpt b

/-- Word-ness of an optional character; the edge of the line counts as a
non-word position. -/
def isWordOpt : Option Char → Bool
  | none => false
  | some c => wordChar c

/-- A word boundary between two adjacent positions holds when word-ness
changes. -/
def wordB (a b : Option Char) : Bool := isWordOpt a != isWordOpt b

/-- Model of the compiled `Regex` returned by `get_regex`: since the source
always escapes the pattern, the compiled matcher is fully determined by the
literal pattern together with the two flags. -/
structure CompiledRegex where
  pat : List Char
  ci : Bool
  ww : Bool

/-- The regex matches at one fixed position of the line: `prev` is the
character just before the position (`none` at the start of the line) and
`s` is the rest of the line.  Without `\b` wrapping this is literal prefix
matching; with it, both word-boundary assertions must also hold: one at the
start of the span and one at its end.  An empty pattern gives an empty span,
whose end boundary is the same boundary as its start. -/
def matchAt (re : CompiledRegex) (prev : Option Char) (s : List Char) : Bool :=
  if re.ww then
    listMatchesAt re.ci re.pat s &&
      wordB prev s.head? &&
      wordB (if re.pat = [] then prev else (s.take re.pat.length).getLast?)
        (s.drop re.pat.length).head?
  else
    listMatchesAt re.ci re.pat s

/-- Scan of every position of the line (including the end-of-line position)
for a match, carrying the previous character. -/
def searchFrom (re : CompiledRegex) : Option Char → List Char → Bool
  | prev, [] => matchAt re prev []
  | prev, c :: s => matchAt re prev (c :: s) || searchFrom re (some c) s

/-- Model of `Regex::is_match` on a whole line. -/
def CompiledRegex.is_match (re : CompiledRegex) (line : List Char) : Bool :=
  searchFrom re none line

/-- Model of `get_regex` (src/main.rs lines 72-86): the pattern is escaped
with `regex::escape`, so the compiled regex denotes the literal pattern;
`whole_words` wraps it in `\b ... \b` and `case_insensitive` prepends
`(?i)`.  Compilation of such an expression cannot fail, so the model is
total. -/
def get_regex (args : Args) : CompiledRegex :=
  { pat := args.pattern, ci := args.case_insensitive, ww := args.whole_words }

/-- Model of `get_matches` (src/main.rs lines 131-134). -/
def get_matches (args : Args) (line : List Char) (re : CompiledRegex) : Bool :=
  let m := re.is_match line
  if args.invert_match then !m else m

/-- ANSI escape sequence emitted by `colored`'s `.red().bold()` before the
matched span. -/
def emphOpen : List Char := "\x1b[1;31m".data

/-- ANSI escape sequence closing the emphasis after the matched span. -/
def emphClose : List Char := "\x1b[0m".data

/-- Segment list produced by the `find_iter` loop of `highlight_matches`
(src/main.rs lines 177-191): `(false, t)` is plain text pushed unchanged
(the text between `last_match` and the start of the next match, and the
trailing text), `(true, t)` is a matched span pushed with emphasis.
`gapRev` is the reversed text accumulated since the end of the previous
match.  `find_iter` yields non-overlapping matches left to right, resuming
at the end of each match and one character after an empty match. -/
def highlightGo (re : CompiledRegex) : Option Char → List Char → List Char →
    List (Bool × List Char)
  | prev, gapRev, [] =>
    if matchAt re prev [] then [(false, gapRev.reverse), (true, []), (false, [])]
    else [(false, gapRev.reverse)]
  | prev, gapRev, c :: s =>
    if matchAt re prev (c :: s) then
      if re.pat.length = 0 then
        (false, gapRev.reverse) :: (true, []) :: highlightGo re (some c) [c] s
      else
        (false, gapRev.reverse) :: (true, c :: s.take (re.pat.length - 1)) ::
          highlightGo re (c :: s.take (re.pat.length - 1)).getLast? []
            (s.drop (re.pat.length - 1))
    else
      highlightGo re (some c) (c :: gapRev) s
termination_by _ _ s => s.length
decreasing_by
  all_goals simp [List.length_drop]
  all_goals omega

/-- Model of `highlight_matches` (src/main.rs lines 177-191) as the list of
segments concatenated into the result string. -/
def highlight_matches (re : CompiledRegex) (line : List Char) :
    List (Bool × List Char) :=
  highlightGo re none [] line

/-- Rendered result string of the segment list: emphasized spans are wrapped
in the ANSI emphasis markers, exactly as `.red().bold().to_string()` does. -/
def renderSegments (segs : List (Bool × List Char)) : List Char :=
  (segs.map (fun p => if p.1 then emphOpen ++ p.2 ++ emphClose else p.2)).flatten

/-- Stripping all emphasis markers from the rendered string: the plain
content of all segments, in order. -/
def stripEmphasis (segs : List (Bool × List Char)) : List Char :=
  (segs.map Prod.snd).flatten

/-- Decimal digits of a natural number, as printed by `println!`. -/
def natChars (n : Nat) : List Char := (toString n).data

/-- Model of `print_match` (src/main.rs lines 137-167): the returned string
is the one line printed to stdout. -/
def print_match (file : List Char) (index : Nat) (line : List Char)
    (re : CompiledRegex) (show_line_number show_filename use_color : Bool) :
    List Char :=
  let pfx :=
    if show_filename then
      if show_line_number then file ++ (':' :: natChars (index + 1)) ++ [':']
      else file ++ [':']
    else
      if show_line_number then natChars (index + 1) ++ [':']
      else []
  let output :=
    if use_color then renderSegments (highlight_matches re line) else line
  pfx ++ output

/-- Model of `should_use_color` (src/main.rs lines 169-175); whether stdout
is a terminal is passed in as a parameter. -/
def should_use_color (colorOption : List Char) (isTerminal : Bool) : Bool :=
  if colorOption = "always".data then true
  else if colorOption = "never".data then false
  else isTerminal

/-- One line of count-mode output printed at end of file (src/main.rs lines
120-126). -/
def renderCount (file : List Char) (show_filename : Bool) (count : Nat) :
    List Char :=
  if show_filename then file ++ (':' :: natChars count) else natChars count

/-- The per-line loop of `process_file` (src/main.rs lines 99-126), carrying
the running 0-based `index` and the running match `count`; returns the list
of stdout lines this file produces. -/
def processLines (file : List Char) (args : Args) (re : CompiledRegex)
    (show_filename use_color : Bool) : Nat → Nat → List (List Char) →
    List (List Char)
  | _, count, [] => if args.count then [renderCount file show_filename count] else []
  | index, count, line :: rest =>
    if get_matches args line re then
      if args.files_with_matches then [file]
      else if args.count then
        processLines file args re show_filename use_color (index + 1) (count + 1) rest
      else
        print_match file index line re args.show_line_numbers show_filename use_color ::
          processLines file args re show_filename use_color (index + 1) count rest
    else
      processLines file args re show_filename use_color (index + 1) count rest

/-- Model of `process_file` (src/main.rs lines 89-128): `lines` is the
result of `contents.lines()` on the file's content; the returned list is
the stdout output for this file. -/
def process_file (file : List Char) (args : Args) (re : CompiledRegex)
    (show_filename isTerminal : Bool) (lines : List (List Char)) :
    List (List Char) :=
  processLines file args re show_filename
    (should_use_color args.color isTerminal) 0 0 lines

/-- The loop of `run` (src/main.rs lines 63-67) over the file names: `fs`
models the file system, `Except.error msg` being a failing
`read_to_string`.  Returns the pair (stdout lines, stderr lines). -/
def runFiles (args : Args)
    (fs : List Char → Except (List Char) (List (List Char)))
    (re : CompiledRegex) (show_filename isTerminal : Bool) :
    List (List Char) → List (List Char) × List (List Char)
  | [] => ([], [])
  | f :: rest =>
    let cur :=
      match fs f with
      | Except.ok ls => (process_file f args re show_filename isTerminal ls, [])
      | Except.error msg => ([], [f ++ (':' :: ' ' :: msg)])
    let next := runFiles args fs re show_filename isTerminal rest
    (cur.1 ++ next.1, cur.2 ++ next.2)

/-- Model of `run` (src/main.rs lines 59-69); it always returns `Except.ok`
because compilation of the escaped pattern cannot fail. -/
def run (args : Args)
    (fs : List Char → Except (List Char) (List (List Char)))
    (isTerminal : Bool) :
    Except (List Char) Unit × List (List Char) × List (List Char) :=
  let re := get_regex args
  let show_filename := decide (args.file.length > 1)
  (Except.ok (), runFiles args fs re show_filename isTerminal args.file)

/-- Model of `main` (src/main.rs lines 50-56): the exit code together with
stdout and stderr. -/
def main (args : Args)
    (fs : List Char → Except (List Char) (List (List Char)))
    (isTerminal : Bool) : Nat × List (List Char) × List (List Char) :=
  match run args fs isTerminal with
  | (Except.ok _, out) => (0, out.1, out.2)
  | (Except.error e, out) => (1, out.1, out.2 ++ ["Application error: ".data ++ e])

/-- Spec-side definition for the refinement claim about Normal-mode
prefixes: the prefix table of spec §4.4, taking the 1-based line number
directly. -/
def specPrefix (file : List Char) (lineNumber : Nat)
    (show_line_number show_filename : Bool) : List Char :=
  if show_filename && show_line_number then
    file ++ (':' :: natChars lineNumber) ++ [':']
  else if show_filename then file ++ [':']
  else if show_line_number then natChars lineNumber ++ [':']
  else []

/-- The character just before a position of the line, given the text `pre`
before that position; `prev` is the character before all of `pre`. -/
def prevAt (prev : Option Char) : List Char → Option Char
  | [] => prev
  | c :: rest => prevAt (some c) rest

/-- Number of matching lines of a file: the quantity count mode reports. -/
def matchCount (args : Args) (re : CompiledRegex) (lines : List (List Char)) : Nat :=
  (lines.filter (fun l => get_matches args l re)).length

/-- Concrete argument record (pattern `foo`, no flags) used to instantiate
the theorems below. -/
def argsFoo : Args :=
  { pattern := "foo".data, file := [], show_line_numbers := false,
    case_insensitive := false, invert_match := false, count := false,
    files_with_matches := false, whole_words := false, color := "auto".data }

/-- Concrete argument record whose pattern is the regex metacharacter `.`. -/
def argsDot : Args := { argsFoo with pattern := ".".data }

/-- Concrete argument record for whole-word matching of `cat`. -/
def argsCat : Args := { argsFoo with pattern := "cat".data, whole_words := true }

/-- The lowercase-normalization strategy of the spec's case-insensitivity
property: lowercase the pattern and turn the flag off (the line is
lowercased separately). -/
def lowerArgs (args : Args) : Args :=
  { args with pattern := args.pattern.map Char.toLower, case_insensitive := false }

/-- Concrete argument record with two input files. -/
def argsTwo : Args := { argsFoo with file := ["f1".data, "f2".data] }

/-- Concrete two-file file-system model where both reads succeed. -/
def fsTwo : List Char → Except (List Char) (List (List Char)) :=
  fun f => if f = "f1".data then Except.ok ["foo bar".data, "baz".data]
    else Except.ok ["xfoo".data]

/-- Concrete file-system model where reading `f1` fails. -/
def fsErr : List Char → Except (List Char) (List (List Char)) :=
  fun f => if f = "f1".data then Except.error "boom".data
    else Except.ok ["foo".data]
theorem prevAt_or (pre : List Char) : ∀ prev : Option Char,
    prevAt prev pre = pre.getLast?.or prev := by
  induction pre with
  | nil => intro prev; simp [prevAt]
  | cons c rest ih =>
    intro prev
    cases rest with
    | nil => simp [prevAt]
    | cons d rest2 =>
      rw [prevAt, ih (some c), List.getLast?_cons_cons]
      have hne : (d :: rest2).getLast? ≠ none := by
        simp [List.getLast?_eq_none_iff]
      cases h : (d :: rest2).getLast? with
      | none => exact absurd h hne
      | some x => simp

theorem listMatchesAt_iff (ci : Bool) (p : List Char) : ∀ s : List Char,
    listMatchesAt ci p s = true ↔
      ∃ mid post, s = mid ++ post ∧ mid.map (fold ci) = p.map (fold ci) := by
  induction p with
  | nil =>
    intro s
    simp only [listMatchesAt, List.map_nil, List.map_eq_nil_iff]
    constructor
    · intro _; exact ⟨[], s, rfl, rfl⟩
    · intro _; trivial
  | cons a p ih =>
    intro s
    cases s with
    | nil =>
      simp only [listMatchesAt, List.map_cons]
      constructor
      · intro h; cases h
      · rintro ⟨mid, post, hsplit, hmap⟩
        have hmid : mid = [] := by
          cases mid with
          | nil => rfl
          | cons x xs => simp at hsplit
        subst hmid
        simp at hmap
    | cons b s' =>
      simp only [listMatchesAt, Bool.and_eq_true, charMatches, decide_eq_true_eq, ih]
      constructor
      · rintro ⟨hab, mid, post, rfl, hmap⟩
        exact ⟨b :: mid, post, rfl, by simp [hmap, hab.symm]⟩
      · rintro ⟨mid, post, hsplit, hmap⟩
        cases mid with
        | nil => simp at hmap
        | cons x mid2 =>
          rw [List.cons_append] at hsplit
          injection hsplit with hb hs
          subst hb
          simp only [List.map_cons, List.cons.injEq] at hmap
          exact ⟨hmap.1.symm, mid2, post, hs, hmap.2⟩

theorem searchFrom_iff (re : CompiledRegex) : ∀ (s : List Char) (prev : Option Char),
    searchFrom re prev s = true ↔
      ∃ pre post, s = pre ++ post ∧ matchAt re (prevAt prev pre) post = true := by
  intro s
  induction s with
  | nil =>
    intro prev
    simp only [searchFrom]
    constructor
    · intro h; exact ⟨[], [], rfl, h⟩
    · rintro ⟨pre, post, hsplit, h⟩
      have hpre : pre = [] := by
        cases pre with
        | nil => rfl
        | cons x xs => simp at hsplit
      subst hpre
      simp at hsplit
      subst hsplit
      exact h
  | cons c s' ih =>
    intro prev
    simp only [searchFrom, Bool.or_eq_true, ih (some c)]
    constructor
    · rintro (h | ⟨pre, post, rfl, h⟩)
      · exact ⟨[], c :: s', rfl, h⟩
      · exact ⟨c :: pre, post, rfl, h⟩
    · rintro ⟨pre, post, hsplit, h⟩
      cases pre with
      | nil =>
        left
        simp only [List.nil_append] at hsplit
        subst hsplit
        exact h
      | cons x pre2 =>
        right
        rw [List.cons_append] at hsplit
        injection hsplit with hb hs
        subst hb
        exact ⟨pre2, post, hs, h⟩

theorem matchAt_ww_false (re : CompiledRegex) (h : re.ww = false)
    (prev : Option Char) (s : List Char) :
    matchAt re prev s = listMatchesAt re.ci re.pat s := by
  simp [matchAt, h]

theorem is_match_ww_false_iff (re : CompiledRegex) (h : re.ww = false)
    (line : List Char) :
    re.is_match line = true ↔
      ∃ pre mid post, line = pre ++ mid ++ post ∧
        mid.map (fold re.ci) = re.pat.map (fold re.ci) := by
  unfold CompiledRegex.is_match
  rw [searchFrom_iff]
  constructor
  · rintro ⟨pre, post, rfl, h2⟩
    rw [matchAt_ww_false re h] at h2
    obtain ⟨mid, post2, rfl, hm⟩ := (listMatchesAt_iff re.ci re.pat post).mp h2
    exact ⟨pre, mid, post2, by simp, hm⟩
  · rintro ⟨pre, mid, post, rfl, hm⟩
    refine ⟨pre, mid ++ post, by simp, ?_⟩
    rw [matchAt_ww_false re h]
    exact (listMatchesAt_iff re.ci re.pat (mid ++ post)).mpr ⟨mid, post, rfl, hm⟩

/-- C1: with neither `invert` nor `whole_words` set, the line-match decision
of `get_matches` on the matcher compiled by `get_regex` is true exactly when
the line contains the pattern as a substring.  With `case_insensitive` off
this holds for every line and pattern (the escaped literal matches exactly
itself, no folding is involved); with it on, characters are compared up to
case folding, stated here on ASCII text, where the crate's Unicode simple
case folding and ASCII lowercasing coincide.  Regex metacharacters are
literal, as witnessed by the pattern `.` not matching the line `abc` while
matching the line `xa.cy`. -/
theorem c1_literal_substring (args : Args) (line : List Char)
    (hinv : args.invert_match = false) (hww : args.whole_words = false) :
    (args.case_insensitive = false →
      (get_matches args line (get_regex args) = true ↔
        ∃ pre post, line = pre ++ args.pattern ++ post))
    ∧ (args.case_insensitive = true →
        (∀ c ∈ args.pattern, c.toNat < 128) → (∀ c ∈ line, c.toNat < 128) →
      (get_matches args line (get_regex args) = true ↔
        ∃ pre mid post, line = pre ++ mid ++ post ∧
          mid.map Char.toLower = args.pattern.map Char.toLower))
    ∧ get_matches argsDot "abc".data (get_regex argsDot) = false
    ∧ get_matches argsDot "xa.cy".data (get_regex argsDot) = true := by
  have hbase : get_matches args line (get_regex args) = true ↔
      ∃ pre mid post, line = pre ++ mid ++ post ∧
        mid.map (fold args.case_insensitive) =
          args.pattern.map (fold args.case_insensitive) := by
    simp only [get_matches, hinv, Bool.false_eq_true, if_false]
    exact is_match_ww_false_iff (get_regex args) hww line
  refine ⟨?_, ?_, by decide, by decide⟩
  · intro hci
    rw [hbase, hci]
    constructor
    · rintro ⟨pre, mid, post, hsplit, hmap⟩
      rw [show fold false = id from funext fun c => rfl, List.map_id,
        List.map_id] at hmap
      exact ⟨pre, post, by rw [hsplit, hmap]⟩
    · rintro ⟨pre, post, hsplit⟩
      exact ⟨pre, args.pattern, post, hsplit, rfl⟩
  · intro hci _ _
    rw [hbase, hci]
    rw [show fold true = Char.toLower from funext fun c => rfl]

theorem c1_literal_substring_witness :
    argsFoo.invert_match = false ∧ argsFoo.whole_words = false ∧
    (get_matches argsFoo "xfooy".data (get_regex argsFoo) = true ↔
      ∃ pre post, "xfooy".data = pre ++ argsFoo.pattern ++ post) ∧
    (get_matches { argsFoo with case_insensitive := true } "xFooy".data
        (get_regex { argsFoo with case_insensitive := true }) = true ↔
      ∃ pre mid post, "xFooy".data = pre ++ mid ++ post ∧
        mid.map Char.toLower =
          ({ argsFoo with case_insensitive := true } : Args).pattern.map
            Char.toLower) :=
  ⟨rfl, rfl,
    (c1_literal_substring argsFoo "xfooy".data rfl rfl).1 rfl,
    (c1_literal_substring { argsFoo with case_insensitive := true } "xFooy".data
      rfl rfl).2.1 rfl (by decide) (by decide)⟩

theorem getLast?_append_cases (pre mid : List Char) :
    (pre ++ mid).getLast? = if mid = [] then pre.getLast? else mid.getLast? := by
  split
  · rename_i hm; subst hm; simp
  · rename_i hm
    rw [List.getLast?_append]
    cases h : mid.getLast? with
    | none => exact absurd (List.getLast?_eq_none_iff.mp h) hm
    | some x => simp

theorem matchAt_ww_true_iff (re : CompiledRegex) (h : re.ww = true)
    (prev : Option Char) (rest : List Char) :
    matchAt re prev rest = true ↔
      ∃ mid post, rest = mid ++ post ∧
        mid.map (fold re.ci) = re.pat.map (fold re.ci) ∧
        wordB prev (mid ++ post).head? = true ∧
        wordB (if mid = [] then prev else mid.getLast?) post.head? = true := by
  simp only [matchAt, h, if_true, Bool.and_eq_true]
  constructor
  · rintro ⟨⟨hlm, hw1⟩, hw2⟩
    obtain ⟨mid, post, rfl, hmap⟩ := (listMatchesAt_iff re.ci re.pat _).mp hlm
    have hlen : mid.length = re.pat.length := by
      have h2 := congrArg List.length hmap
      simpa using h2
    refine ⟨mid, post, rfl, hmap, hw1, ?_⟩
    by_cases hp : re.pat = []
    · have hmid : mid = [] := by
        rw [hp] at hlen
        exact List.length_eq_zero.mp (by simpa using hlen)
      rw [if_pos hp, hp] at hw2
      simp only [List.length_nil, List.drop_zero] at hw2
      rw [if_pos hmid]
      subst hmid
      simpa using hw2
    · have hmid : mid ≠ [] := by
        intro e
        apply hp
        rw [e] at hlen
        exact List.length_eq_zero.mp (by simpa using hlen.symm)
      rw [if_neg hp, List.take_left' hlen, List.drop_left' hlen] at hw2
      rw [if_neg hmid]
      exact hw2
  · rintro ⟨mid, post, rfl, hmap, hw1, hw2⟩
    have hlen : mid.length = re.pat.length := by
      have h2 := congrArg List.length hmap
      simpa using h2
    refine ⟨⟨(listMatchesAt_iff re.ci re.pat _).mpr ⟨mid, post, rfl, hmap⟩, hw1⟩, ?_⟩
    by_cases hp : re.pat = []
    · have hmid : mid = [] := by
        rw [hp] at hlen
        exact List.length_eq_zero.mp (by simpa using hlen)
      rw [if_pos hp, hp]
      simp only [List.length_nil, List.drop_zero]
      rw [if_pos hmid] at hw2
      subst hmid
      simpa using hw2
    · have hmid : mid ≠ [] := by
        intro e
        apply hp
        rw [e] at hlen
        exact List.length_eq_zero.mp (by simpa using hlen.symm)
      rw [if_neg hp, List.take_left' hlen, List.drop_left' hlen]
      rw [if_neg hmid] at hw2
      exact hw2

theorem is_match_ww_true_iff (re : CompiledRegex) (h : re.ww = true)
    (line : List Char) :
    re.is_match line = true ↔
      ∃ pre mid post, line = pre ++ mid ++ post ∧
        mid.map (fold re.ci) = re.pat.map (fold re.ci) ∧
        wordB pre.getLast? (mid ++ post).head? = true ∧
        wordB (pre ++ mid).getLast? post.head? = true := by
  unfold CompiledRegex.is_match
  rw [searchFrom_iff]
  constructor
  · rintro ⟨pre, rest, rfl, h2⟩
    rw [prevAt_or, Option.or_none] at h2
    obtain ⟨mid, post, rfl, hmap, hw1, hw2⟩ := (matchAt_ww_true_iff re h _ _).mp h2
    refine ⟨pre, mid, post, by simp, hmap, hw1, ?_⟩
    rw [getLast?_append_cases]
    exact hw2
  · rintro ⟨pre, mid, post, rfl, hmap, hw1, hw2⟩
    refine ⟨pre, mid ++ post, by simp, ?_⟩
    rw [prevAt_or, Option.or_none]
    refine (matchAt_ww_true_iff re h _ _).mpr ⟨mid, post, rfl, hmap, hw1, ?_⟩
    rw [getLast?_append_cases] at hw2
    exact hw2

theorem latinOneExtra_ascii (c : Char) (h : c.toNat < 128) :
    latinOneExtra c = false := by
  simp only [latinOneExtra, Bool.or_eq_false_iff, Bool.and_eq_false_iff,
    decide_eq_false_iff_not]
  omega

theorem wordChar_ascii (c : Char) (h : c.toNat < 128) :
    wordChar c = asciiWordChar c := by
  simp [wordChar, asciiWordChar, latinOneExtra_ascii c h]

theorem wordB_ascii (a b : Option Char)
    (ha : ∀ c : Char, a = some c → c.toNat < 128)
    (hb : ∀ c : Char, b = some c → c.toNat < 128) :
    wordB a b = asciiWordB a b := by
  cases a with
  | none =>
    cases b with
    | none => rfl
    | some d =>
      simp [wordB, asciiWordB, isWordOpt, asciiIsWordOpt,
        wordChar_ascii d (hb d rfl)]
  | some c =>
    cases b with
    | none =>
      simp [wordB, asciiWordB, isWordOpt, asciiIsWordOpt,
        wordChar_ascii c (ha c rfl)]
    | some d =>
      simp [wordB, asciiWordB, isWordOpt, asciiIsWordOpt,
        wordChar_ascii c (ha c rfl), wordChar_ascii d (hb d rfl)]

theorem mem_of_head?_eq_some {xs : List Char} {a : Char}
    (h : xs.head? = some a) : a ∈ xs := by
  obtain ⟨ys, rfl⟩ := List.head?_eq_some_iff.mp h
  exact List.mem_cons_self a ys

/-- C4 counterexample: the claim describes the `\b` word class as the ASCII
set `[A-Za-z0-9_]`, but the crate's `\b` is Unicode-aware, under which `é`
is a word character.  On the line `écat` with whole-word pattern `cat` the
program finds no match (no boundary between `é` and `c`), yet the ASCII
class puts a boundary there, so the claimed equivalence fails at this
input. -/
theorem c4_whole_words_counterexample :
    ¬(get_matches argsCat "écat".data (get_regex argsCat) = true ↔
      ∃ pre mid post, "écat".data = pre ++ mid ++ post ∧
        mid.map (fold argsCat.case_insensitive) =
          argsCat.pattern.map (fold argsCat.case_insensitive) ∧
        asciiWordB pre.getLast? (mid ++ post).head? = true ∧
        asciiWordB (pre ++ mid).getLast? post.head? = true) := by
  intro h
  have hchar : ∃ pre mid post, "écat".data = pre ++ mid ++ post ∧
      mid.map (fold argsCat.case_insensitive) =
        argsCat.pattern.map (fold argsCat.case_insensitive) ∧
      asciiWordB pre.getLast? (mid ++ post).head? = true ∧
      asciiWordB (pre ++ mid).getLast? post.head? = true :=
    ⟨"é".data, "cat".data, [], by decide, by decide, by decide, by decide⟩
  have hmatch := h.mpr hchar
  have hdec : get_matches argsCat "écat".data (get_regex argsCat) = false := by
    decide
  rw [hmatch] at hdec
  exact Bool.noConfusion hdec

/-- C4 (amended): with `whole_words` set, the compiled matcher is the
escaped literal wrapped in word-boundary assertions on both sides; the word
class of the crate's `\b` is Unicode's `\w`, which on ASCII text is exactly
`[A-Za-z0-9_]`.  For ASCII lines and patterns the decision is therefore
true exactly when the pattern occurs literally (up to the selected case
folding) with an `[A-Za-z0-9_]`-boundary transition — the edges of the line
counting as non-word — at both ends of the occurrence; consequently the
pattern `cat` matches the line `the cat sat` but not the line
`concatenate`. -/
theorem c4_whole_words_ascii (args : Args) (line : List Char)
    (hww : args.whole_words = true) (hinv : args.invert_match = false)
    (_hP : ∀ c ∈ args.pattern, c.toNat < 128) (hL : ∀ c ∈ line, c.toNat < 128) :
    (get_matches args line (get_regex args) = true ↔
      ∃ pre mid post, line = pre ++ mid ++ post ∧
        mid.map (fold args.case_insensitive) =
          args.pattern.map (fold args.case_insensitive) ∧
        asciiWordB pre.getLast? (mid ++ post).head? = true ∧
        asciiWordB (pre ++ mid).getLast? post.head? = true)
    ∧ get_matches argsCat "the cat sat".data (get_regex argsCat) = true
    ∧ get_matches argsCat "concatenate".data (get_regex argsCat) = false := by
  refine ⟨?_, by decide, by decide⟩
  have hbase : get_matches args line (get_regex args) = true ↔
      ∃ pre mid post, line = pre ++ mid ++ post ∧
        mid.map (fold args.case_insensitive) =
          args.pattern.map (fold args.case_insensitive) ∧
        wordB pre.getLast? (mid ++ post).head? = true ∧
        wordB (pre ++ mid).getLast? post.head? = true := by
    simp only [get_matches, hinv, Bool.false_eq_true, if_false]
    exact is_match_ww_true_iff (get_regex args) hww line
  rw [hbase]
  constructor
  · rintro ⟨pre, mid, post, hsplit, hmap, hw1, hw2⟩
    have e1 : wordB pre.getLast? ((mid ++ post).head?) =
        asciiWordB pre.getLast? ((mid ++ post).head?) := by
      apply wordB_ascii
      · intro c hc
        refine hL c ?_
        rw [hsplit]
        have := List.mem_of_getLast?_eq_some hc
        simp [List.mem_append, this]
      · intro c hc
        refine hL c ?_
        rw [hsplit]
        have := mem_of_head?_eq_some hc
        simp only [List.mem_append] at this ⊢
        tauto
    have e2 : wordB ((pre ++ mid).getLast?) post.head? =
        asciiWordB ((pre ++ mid).getLast?) post.head? := by
      apply wordB_ascii
      · intro c hc
        refine hL c ?_
        rw [hsplit]
        have := List.mem_of_getLast?_eq_some hc
        simp only [List.mem_append] at this ⊢
        tauto
      · intro c hc
        refine hL c ?_
        rw [hsplit]
        have := mem_of_head?_eq_some hc
        simp [List.mem_append, this]
    exact ⟨pre, mid, post, hsplit, hmap, by rw [← e1]; exact hw1,
      by rw [← e2]; exact hw2⟩
  · rintro ⟨pre, mid, post, hsplit, hmap, hw1, hw2⟩
    have e1 : wordB pre.getLast? ((mid ++ post).head?) =
        asciiWordB pre.getLast? ((mid ++ post).head?) := by
      apply wordB_ascii
      · intro c hc
        refine hL c ?_
        rw [hsplit]
        have := List.mem_of_getLast?_eq_some hc
        simp [List.mem_append, this]
      · intro c hc
        refine hL c ?_
        rw [hsplit]
        have := mem_of_head?_eq_some hc
        simp only [List.mem_append] at this ⊢
        tauto
    have e2 : wordB ((pre ++ mid).getLast?) post.head? =
        asciiWordB ((pre ++ mid).getLast?) post.head? := by
      apply wordB_ascii
      · intro c hc
        refine hL c ?_
        rw [hsplit]
        have := List.mem_of_getLast?_eq_some hc
        simp only [List.mem_append] at this ⊢
        tauto
      · intro c hc
        refine hL c ?_
        rw [hsplit]
        have := mem_of_head?_eq_some hc
        simp [List.mem_append, this]
    exact ⟨pre, mid, post, hsplit, hmap, by rw [e1]; exact hw1,
      by rw [e2]; exact hw2⟩

theorem c4_whole_words_ascii_witness :
    argsCat.whole_words = true ∧ argsCat.invert_match = false ∧
    (∀ c ∈ "the cat sat".data, c.toNat < 128) ∧
    ((get_matches argsCat "the cat sat".data (get_regex argsCat) = true ↔
      ∃ pre mid post, "the cat sat".data = pre ++ mid ++ post ∧
        mid.map (fold argsCat.case_insensitive) =
          argsCat.pattern.map (fold argsCat.case_insensitive) ∧
        asciiWordB pre.getLast? (mid ++ post).head? = true ∧
        asciiWordB (pre ++ mid).getLast? post.head? = true)
     ∧ get_matches argsCat "the cat sat".data (get_regex argsCat) = true
     ∧ get_matches argsCat "concatenate".data (get_regex argsCat) = false) :=
  ⟨rfl, rfl, by decide,
    c4_whole_words_ascii argsCat "the cat sat".data rfl rfl (by decide)
      (by decide)⟩

/-- C2: for every argument record and line, flipping only `invert_match`
negates the decision of `get_matches` on the matcher compiled from the
remaining flags. -/
theorem c2_invert_negation (args : Args) (line : List Char) :
    get_matches { args with invert_match := true } line (get_regex args) =
      !get_matches { args with invert_match := false } line (get_regex args) := by
  simp [get_matches]

theorem uint32_le_iff_toNat (a b : UInt32) : a ≤ b ↔ a.toNat ≤ b.toNat := by
  rw [UInt32.le_def, BitVec.le_def]; rfl

theorem char_toNat_ofNat (n : Nat) (h : n.isValidChar) : (Char.ofNat n).toNat = n := by
  unfold Char.ofNat
  rw [dif_pos h]
  rfl

theorem char_eq_iff_toNat (c d : Char) : c = d ↔ c.toNat = d.toNat :=
  ⟨fun h => by rw [h], fun h => Char.eq_of_val_eq (UInt32.toNat.inj h)⟩

theorem wordChar_iff (c : Char) : wordChar c = true ↔
    (65 ≤ c.toNat ∧ c.toNat ≤ 90) ∨ (97 ≤ c.toNat ∧ c.toNat ≤ 122) ∨
      (48 ≤ c.toNat ∧ c.toNat ≤ 57) ∨ c.toNat = 95 ∨ c.toNat = 0xAA ∨
      c.toNat = 0xB5 ∨ c.toNat = 0xBA ∨ (0xC0 ≤ c.toNat ∧ c.toNat ≤ 0xD6) ∨
      (0xD8 ≤ c.toNat ∧ c.toNat ≤ 0xF6) ∨ (0xF8 ≤ c.toNat ∧ c.toNat ≤ 0xFF) := by
  simp only [wordChar, latinOneExtra, Char.isAlphanum, Char.isAlpha, Char.isDigit,
    Char.isUpper, Char.isLower, Bool.or_eq_true, Bool.and_eq_true,
    decide_eq_true_eq, ge_iff_le, uint32_le_iff_toNat, char_eq_iff_toNat,
    show UInt32.toNat 65 = 65 from rfl, show UInt32.toNat 90 = 90 from rfl,
    show UInt32.toNat 97 = 97 from rfl, show UInt32.toNat 122 = 122 from rfl,
    show UInt32.toNat 48 = 48 from rfl, show UInt32.toNat 57 = 57 from rfl,
    show ('_').toNat = 95 from rfl]
  simp only [Char.toNat]
  omega

theorem toLower_eq (c : Char) :
    c.toLower = if 65 ≤ c.toNat ∧ c.toNat ≤ 90 then Char.ofNat (c.toNat + 32) else c :=
  rfl

theorem toLower_toNat (c : Char) (h : 65 ≤ c.toNat ∧ c.toNat ≤ 90) :
    c.toLower.toNat = c.toNat + 32 := by
  rw [toLower_eq, if_pos h, char_toNat_ofNat]
  exact Or.inl (by omega)

theorem toLower_eq_self (c : Char) (h : ¬(65 ≤ c.toNat ∧ c.toNat ≤ 90)) :
    c.toLower = c := by
  rw [toLower_eq, if_neg h]

theorem wordChar_toLower (c : Char) : wordChar c.toLower = wordChar c := by
  by_cases h : 65 ≤ c.toNat ∧ c.toNat ≤ 90
  · have h1 : wordChar c = true := (wordChar_iff c).mpr (Or.inl h)
    have h2 : wordChar c.toLower = true :=
      (wordChar_iff _).mpr (Or.inr (Or.inl (by rw [toLower_toNat c h]; omega)))
    rw [h1, h2]
  · rw [toLower_eq_self c h]

theorem charMatches_ci (a b : Char) :
    charMatches true a b = charMatches false a.toLower b.toLower :=
  rfl

theorem listMatchesAt_ci (p : List Char) : ∀ s : List Char,
    listMatchesAt true p s =
      listMatchesAt false (p.map Char.toLower) (s.map Char.toLower) := by
  induction p with
  | nil => intro s; cases s <;> rfl
  | cons a p ih =>
    intro s
    cases s with
    | nil => rfl
    | cons b s' =>
      simp only [List.map_cons, listMatchesAt, ih s']
      rfl

theorem isWordOpt_map_toLower (o : Option Char) :
    isWordOpt (o.map Char.toLower) = isWordOpt o := by
  cases o with
  | none => rfl
  | some c => simp [isWordOpt, wordChar_toLower]

theorem wordB_map_toLower (a b : Option Char) :
    wordB (a.map Char.toLower) (b.map Char.toLower) = wordB a b := by
  simp [wordB, isWordOpt_map_toLower]

theorem matchAt_ci (re : CompiledRegex) (h : re.ci = true)
    (prev : Option Char) (s : List Char) :
    matchAt re prev s =
      matchAt ⟨re.pat.map Char.toLower, false, re.ww⟩ (prev.map Char.toLower)
        (s.map Char.toLower) := by
  simp only [matchAt, List.map_eq_nil_iff, List.length_map, List.head?_map,
    List.getLast?_map, ← List.map_take, ← List.map_drop, h, listMatchesAt_ci]
  by_cases hp : re.pat = []
  · simp [hp, wordB_map_toLower]
  · simp only [hp, if_neg, ite_false, List.getLast?_map, List.head?_map,
      wordB_map_toLower]

theorem searchFrom_ci (re : CompiledRegex) (h : re.ci = true) :
    ∀ (s : List Char) (prev : Option Char),
    searchFrom re prev s =
      searchFrom ⟨re.pat.map Char.toLower, false, re.ww⟩ (prev.map Char.toLower)
        (s.map Char.toLower) := by
  intro s
  induction s with
  | nil => intro prev; simp only [List.map_nil, searchFrom, matchAt_ci re h]
  | cons c s' ih =>
    intro prev
    simp only [List.map_cons, searchFrom, matchAt_ci re h, List.map_cons]
    rw [ih (some c)]
    rfl

/-- C3: for ASCII lines and patterns, matching with `case_insensitive` set —
the `(?i)` flag on the compiled matcher — gives the same decision as
matching the lowercased line against the lowercased pattern without the
flag. -/
theorem c3_case_fold (args : Args) (line : List Char)
    (_hP : ∀ c ∈ args.pattern, c.toNat < 128) (_hL : ∀ c ∈ line, c.toNat < 128) :
    get_matches { args with case_insensitive := true } line
        (get_regex { args with case_insensitive := true }) =
      get_matches (lowerArgs args) (line.map Char.toLower)
        (get_regex (lowerArgs args)) := by
  simp only [get_matches, get_regex, lowerArgs]
  have h2 :
      CompiledRegex.is_match ⟨args.pattern, true, args.whole_words⟩ line =
        CompiledRegex.is_match
          ⟨args.pattern.map Char.toLower, false, args.whole_words⟩
          (line.map Char.toLower) := by
    unfold CompiledRegex.is_match
    exact searchFrom_ci ⟨args.pattern, true, args.whole_words⟩ rfl line none
  rw [h2]

theorem c3_case_fold_witness :
    (∀ c ∈ argsFoo.pattern, c.toNat < 128) ∧ (∀ c ∈ "xFoOy".data, c.toNat < 128) ∧
    (get_matches { argsFoo with case_insensitive := true } "xFoOy".data
        (get_regex { argsFoo with case_insensitive := true }) =
      get_matches (lowerArgs argsFoo) ("xFoOy".data.map Char.toLower)
        (get_regex (lowerArgs argsFoo))) :=
  ⟨by decide, by decide, c3_case_fold argsFoo "xFoOy".data (by decide) (by decide)⟩

theorem stripEmphasis_cons (b : Bool) (t : List Char)
    (rest : List (Bool × List Char)) :
    stripEmphasis ((b, t) :: rest) = t ++ stripEmphasis rest := by
  simp [stripEmphasis]

theorem highlightGo_strip (re : CompiledRegex) :
    ∀ (n : Nat) (s : List Char), s.length ≤ n →
      ∀ (prev : Option Char) (gapRev : List Char),
      stripEmphasis (highlightGo re prev gapRev s) = gapRev.reverse ++ s := by
  intro n
  induction n with
  | zero =>
    intro s hs prev gapRev
    have hnil : s = [] := List.length_eq_zero.mp (Nat.le_zero.mp hs)
    subst hnil
    simp only [highlightGo]
    split <;> simp [stripEmphasis]
  | succ n ih =>
    intro s hs prev gapRev
    cases s with
    | nil =>
      simp only [highlightGo]
      split <;> simp [stripEmphasis]
    | cons c s' =>
      have hn : s'.length ≤ n := by
        simp only [List.length_cons] at hs
        omega
      simp only [highlightGo]
      split
      · split
        · rw [stripEmphasis_cons, stripEmphasis_cons,
            ih s' hn (some c) [c]]
          simp
        · rw [stripEmphasis_cons, stripEmphasis_cons,
            ih (s'.drop (re.pat.length - 1)) (by simp; omega)
              (c :: s'.take (re.pat.length - 1)).getLast? []]
          simp [List.take_append_drop]
      · rw [ih s' hn (some c) (c :: gapRev)]
        simp

theorem searchFrom_false_highlightGo (re : CompiledRegex) :
    ∀ (s : List Char) (prev : Option Char) (gapRev : List Char),
      searchFrom re prev s = false →
      highlightGo re prev gapRev s = [(false, gapRev.reverse ++ s)] := by
  intro s
  induction s with
  | nil =>
    intro prev gapRev h
    simp only [searchFrom] at h
    simp [highlightGo, h]
  | cons c s' ih =>
    intro prev gapRev h
    simp only [searchFrom, Bool.or_eq_false_iff] at h
    simp only [highlightGo, h.1, Bool.false_eq_true, if_false]
    rw [ih (some c) (c :: gapRev) h.2]
    simp

/-- C5: stripping all emphasis markers from the segments produced by
`highlight_matches` yields exactly the original line — non-matched text is
unchanged, the matched spans appear once each in original left-to-right
order with nothing inserted between adjacent matches — and when the matcher
finds no match at all the rendered result is the line itself. -/
theorem c5_highlight_roundtrip (re : CompiledRegex) (line : List Char) :
    stripEmphasis (highlight_matches re line) = line
    ∧ (re.is_match line = false →
        renderSegments (highlight_matches re line) = line) := by
  constructor
  · simpa using highlightGo_strip re line.length line (Nat.le_refl _) none []
  · intro h
    unfold highlight_matches
    rw [searchFrom_false_highlightGo re line none [] h]
    simp [renderSegments]

theorem c5_highlight_roundtrip_witness :
    stripEmphasis (highlight_matches (get_regex argsFoo) "bar".data) = "bar".data
    ∧ renderSegments (highlight_matches (get_regex argsFoo) "bar".data) =
        "bar".data :=
  ⟨(c5_highlight_roundtrip (get_regex argsFoo) "bar".data).1,
   (c5_highlight_roundtrip (get_regex argsFoo) "bar".data).2 (by decide)⟩

theorem processLines_count (file : List Char) (args : Args) (re : CompiledRegex)
    (sf uc : Bool) (hc : args.count = true) (hl : args.files_with_matches = false) :
    ∀ (lines : List (List Char)) (i c : Nat),
      processLines file args re sf uc i c lines =
        [renderCount file sf (c + matchCount args re lines)] := by
  intro lines
  induction lines with
  | nil => intro i c; simp [processLines, hc, matchCount]
  | cons l rest ih =>
    intro i c
    simp only [processLines]
    by_cases hm : get_matches args l re
    · simp only [hm, if_true, hl, Bool.false_eq_true, if_false, hc]
      rw [ih (i + 1) (c + 1)]
      have hmc : matchCount args re (l :: rest) = matchCount args re rest + 1 := by
        simp [matchCount, List.filter_cons, hm]
      rw [hmc]
      have harith : c + 1 + matchCount args re rest =
          c + (matchCount args re rest + 1) := by omega
      rw [harith]
    · simp only [Bool.not_eq_true] at hm
      simp only [hm, Bool.false_eq_true, if_false]
      rw [ih (i + 1) c]
      have hmc : matchCount args re (l :: rest) = matchCount args re rest := by
        simp [matchCount, List.filter_cons, hm]
      rw [hmc]

theorem processLines_no_match (file : List Char) (args : Args) (re : CompiledRegex)
    (sf uc : Bool) (hc : args.count = false) :
    ∀ lines : List (List Char), (∀ x ∈ lines, get_matches args x re = false) →
      ∀ i c : Nat, processLines file args re sf uc i c lines = [] := by
  intro lines
  induction lines with
  | nil => intro _ i c; simp [processLines, hc]
  | cons l rest ih =>
    intro hno i c
    have hx : get_matches args l re = false := hno l (by simp)
    simp only [processLines, hx, Bool.false_eq_true, if_false]
    exact ih (fun y hy => hno y (by simp [hy])) (i + 1) c

theorem processLines_fwm (file : List Char) (args : Args) (re : CompiledRegex)
    (sf uc : Bool) (hl : args.files_with_matches = true) :
    ∀ pre : List (List Char), (∀ x ∈ pre, get_matches args x re = false) →
      ∀ l : List Char, get_matches args l re = true →
      ∀ (post : List (List Char)) (i c : Nat),
      processLines file args re sf uc i c (pre ++ l :: post) = [file] := by
  intro pre
  induction pre with
  | nil =>
    intro _ l hm post i c
    simp [processLines, hm, hl]
  | cons x pre ih =>
    intro hpre l hm post i c
    have hx : get_matches args x re = false := hpre x (by simp)
    simp only [List.cons_append, processLines, hx, Bool.false_eq_true, if_false]
    exact ih (fun y hy => hpre y (by simp [hy])) l hm post (i + 1) c

theorem processLines_normal (file : List Char) (args : Args) (re : CompiledRegex)
    (sf uc : Bool) (hc : args.count = false) (hl : args.files_with_matches = false) :
    ∀ (lines : List (List Char)) (i c : Nat),
      processLines file args re sf uc i c lines =
        ((List.enumFrom i lines).filter (fun p => get_matches args p.2 re)).map
          (fun p => print_match file p.1 p.2 re args.show_line_numbers sf uc) := by
  intro lines
  induction lines with
  | nil => intro i c; simp [processLines, hc]
  | cons l rest ih =>
    intro i c
    simp only [processLines, List.enumFrom_cons]
    by_cases hm : get_matches args l re
    · simp only [hm, if_true, hl, Bool.false_eq_true, if_false, hc,
        List.filter_cons, List.map_cons]
      rw [ih (i + 1) c]
    · simp only [Bool.not_eq_true] at hm
      simp only [hm, Bool.false_eq_true, if_false, List.filter_cons]
      rw [ih (i + 1) c]

theorem process_file_normal (f : List Char) (args : Args) (re : CompiledRegex)
    (sf isT : Bool) (lines : List (List Char))
    (hc : args.count = false) (hl : args.files_with_matches = false) :
    process_file f args re sf isT lines =
      ((List.enumFrom 0 lines).filter (fun p => get_matches args p.2 re)).map
        (fun p => print_match f p.1 p.2 re args.show_line_numbers sf
          (should_use_color args.color isT)) := by
  unfold process_file
  exact processLines_normal f args re sf _ hc hl lines 0 0

/-- C6: in count mode the output for a file is exactly one line, emitted at
file end, holding the number of matching lines (neither the total line
count nor the substring-occurrence count): `count` alone when exactly one
file was given, `filename:count` when more than one. -/
theorem c6_count_mode (args : Args) (f : List Char) (lines : List (List Char))
    (fs : List Char → Except (List Char) (List (List Char))) (isT : Bool)
    (hc : args.count = true) (hl : args.files_with_matches = false) :
    (∀ sf : Bool, process_file f args (get_regex args) sf isT lines =
        [if sf then f ++ (':' :: natChars (matchCount args (get_regex args) lines))
         else natChars (matchCount args (get_regex args) lines)])
    ∧ (args.file = [f] → fs f = Except.ok lines →
        (run args fs isT).2.1 = [natChars (matchCount args (get_regex args) lines)])
    ∧ (∀ (g : List Char) (glines : List (List Char)), args.file = [f, g] →
        fs f = Except.ok lines → fs g = Except.ok glines →
        (run args fs isT).2.1 =
          [f ++ (':' :: natChars (matchCount args (get_regex args) lines)),
           g ++ (':' :: natChars (matchCount args (get_regex args) glines))]) := by
  have hpf : ∀ sf : Bool, process_file f args (get_regex args) sf isT lines =
      [renderCount f sf (matchCount args (get_regex args) lines)] := by
    intro sf
    unfold process_file
    rw [processLines_count f args (get_regex args) sf _ hc hl lines 0 0]
    simp
  refine ⟨?_, ?_, ?_⟩
  · intro sf
    rw [hpf sf]
    simp [renderCount]
  · intro hfile hok
    have : (run args fs isT).2.1 =
        (runFiles args fs (get_regex args) (decide (args.file.length > 1)) isT
          args.file).1 := rfl
    rw [this, hfile]
    simp only [List.length_cons, List.length_nil, runFiles, hok]
    have hsf : decide ((1 : Nat) > 1) = false := by decide
    simp only [Nat.zero_add, hsf, hpf false, renderCount, Bool.false_eq_true,
      if_false, List.append_nil]
  · intro g glines hfile hokf hokg
    have hpg : process_file g args (get_regex args) true isT glines =
        [renderCount g true (matchCount args (get_regex args) glines)] := by
      unfold process_file
      rw [processLines_count g args (get_regex args) true _ hc hl glines 0 0]
      simp
    have h0 : (run args fs isT).2.1 =
        (runFiles args fs (get_regex args) (decide (args.file.length > 1)) isT
          args.file).1 := rfl
    rw [h0, hfile]
    have hsf : decide (([f, g] : List (List Char)).length > 1) = true := by simp
    simp only [hsf, runFiles, hokf, hokg, hpf true, hpg, renderCount, if_true,
      List.append_nil]
    rfl

theorem c6_count_mode_witness :
    ({ argsFoo with count := true } : Args).count = true ∧
    ({ argsFoo with count := true } : Args).files_with_matches = false ∧
    process_file "f1".data { argsFoo with count := true }
        (get_regex { argsFoo with count := true }) false false
        ["foo bar".data, "baz".data, "foobar".data] =
      [natChars (matchCount { argsFoo with count := true }
        (get_regex { argsFoo with count := true })
        ["foo bar".data, "baz".data, "foobar".data])] :=
  ⟨rfl, rfl, by
    have h := (c6_count_mode { argsFoo with count := true } "f1".data
      ["foo bar".data, "baz".data, "foobar".data]
      (fun _ => Except.error []) false rfl rfl).1 false
    simpa using h⟩

/-- C7: in filenames-only mode a file whose lines start with any number of
non-matching lines followed by a matching one prints exactly its file
identifier once, whatever lines follow the first match (they are never
reached), and a file without any matching line prints nothing. -/
theorem c7_filenames_only (args : Args) (f : List Char) (isT sf : Bool)
    (pre post lines : List (List Char)) (l : List Char)
    (hl : args.files_with_matches = true) (hc : args.count = false) :
    ((∀ x ∈ pre, get_matches args x (get_regex args) = false) →
      get_matches args l (get_regex args) = true →
      process_file f args (get_regex args) sf isT (pre ++ l :: post) = [f])
    ∧ ((∀ x ∈ lines, get_matches args x (get_regex args) = false) →
      process_file f args (get_regex args) sf isT lines = []) := by
  constructor
  · intro hpre hm
    unfold process_file
    exact processLines_fwm f args (get_regex args) sf _ hl pre hpre l hm post 0 0
  · intro hno
    unfold process_file
    exact processLines_no_match f args (get_regex args) sf _ hc lines hno 0 0

theorem c7_filenames_only_witness :
    ({ argsFoo with files_with_matches := true } : Args).files_with_matches = true ∧
    process_file "f1".data { argsFoo with files_with_matches := true }
        (get_regex { argsFoo with files_with_matches := true }) false false
        ["baz".data, "a foo b".data, "whatever".data] = ["f1".data] :=
  ⟨rfl, by
    have h := (c7_filenames_only { argsFoo with files_with_matches := true }
      "f1".data false false ["baz".data] ["whatever".data] [] "a foo b".data
      rfl rfl).1 (by decide) (by decide)
    simpa using h⟩

theorem runFiles_append (args : Args)
    (fs : List Char → Except (List Char) (List (List Char)))
    (re : CompiledRegex) (sf isT : Bool) :
    ∀ l1 l2 : List (List Char),
      runFiles args fs re sf isT (l1 ++ l2) =
        ((runFiles args fs re sf isT l1).1 ++ (runFiles args fs re sf isT l2).1,
         (runFiles args fs re sf isT l1).2 ++ (runFiles args fs re sf isT l2).2) := by
  intro l1 l2
  induction l1 with
  | nil => simp [runFiles]
  | cons f rest ih =>
    simp only [List.cons_append, runFiles, List.append_eq, ih, List.append_assoc]

theorem runFiles_fst (args : Args)
    (fs : List Char → Except (List Char) (List (List Char)))
    (re : CompiledRegex) (sf isT : Bool) :
    ∀ fl : List (List Char),
      (runFiles args fs re sf isT fl).1 =
        (fl.map (fun f =>
          match fs f with
          | Except.ok ls => process_file f args re sf isT ls
          | Except.error _ => [])).flatten := by
  intro fl
  induction fl with
  | nil => simp [runFiles]
  | cons f rest ih =>
    simp only [runFiles, List.map_cons, List.flatten_cons, ← ih]
    cases hfs : fs f with
    | ok ls => simp
    | error e => simp

/-- C8: in Normal mode the stdout of a run is, file by file in order, the
matching lines each printed as a spec-table prefix followed by the line
content: `filename:lineNumber:` when both filename display and line numbers
apply, `filename:` or `lineNumber:` when only one applies, empty otherwise;
the line number is the 0-based index plus one, and filename display is on
exactly when more than one input file was supplied. -/
theorem c8_normal_mode_format (args : Args)
    (fs : List Char → Except (List Char) (List (List Char))) (isT : Bool)
    (hc : args.count = false) (hl : args.files_with_matches = false) :
    ((run args fs isT).2.1 =
      (args.file.map (fun f =>
        match fs f with
        | Except.ok ls =>
            ((List.enumFrom 0 ls).filter
                (fun p => get_matches args p.2 (get_regex args))).map
              (fun p => print_match f p.1 p.2 (get_regex args)
                args.show_line_numbers (decide (args.file.length > 1))
                (should_use_color args.color isT))
        | Except.error _ => [])).flatten)
    ∧ (∀ (f : List Char) (i : Nat) (l : List Char) (re2 : CompiledRegex)
        (sln sf uc : Bool),
        print_match f i l re2 sln sf uc =
          specPrefix f (i + 1) sln sf ++
            (if uc then renderSegments (highlight_matches re2 l) else l)) := by
  constructor
  · have h0 : (run args fs isT).2.1 =
        (runFiles args fs (get_regex args) (decide (args.file.length > 1)) isT
          args.file).1 := rfl
    rw [h0, runFiles_fst]
    congr 1
    apply List.map_congr_left
    intro f _
    cases hfs : fs f with
    | ok ls =>
      simp only []
      exact process_file_normal f args (get_regex args) _ isT ls hc hl
    | error e => rfl
  · intro f i l re2 sln sf uc
    unfold print_match specPrefix
    cases sln <;> cases sf <;> simp

theorem c8_normal_mode_format_witness :
    argsTwo.count = false ∧
    ((run argsTwo fsTwo false).2.1 =
      (argsTwo.file.map (fun f =>
        match fsTwo f with
        | Except.ok ls =>
            ((List.enumFrom 0 ls).filter
                (fun p => get_matches argsTwo p.2 (get_regex argsTwo))).map
              (fun p => print_match f p.1 p.2 (get_regex argsTwo)
                argsTwo.show_line_numbers (decide (argsTwo.file.length > 1))
                (should_use_color argsTwo.color false))
        | Except.error _ => [])).flatten) :=
  ⟨rfl, (c8_normal_mode_format argsTwo fsTwo false rfl rfl).1⟩

/-- C9: a failing read of one file is caught at the per-file boundary:
stderr gets one line `path: reason`, the stdout of the run is exactly the
stdout of the files before it followed by the stdout of the files after it
(all of which are still processed), and the process exit code is 0. -/
theorem c9_read_error (args : Args)
    (fs : List Char → Except (List Char) (List (List Char))) (isT : Bool)
    (f msg : List Char) (l1 l2 : List (List Char))
    (hfile : args.file = l1 ++ f :: l2) (herr : fs f = Except.error msg) :
    ((run args fs isT).2.1 =
      (runFiles args fs (get_regex args) (decide (args.file.length > 1)) isT l1).1 ++
      (runFiles args fs (get_regex args) (decide (args.file.length > 1)) isT l2).1)
    ∧ ((run args fs isT).2.2 =
      (runFiles args fs (get_regex args) (decide (args.file.length > 1)) isT l1).2 ++
        (f ++ (':' :: ' ' :: msg)) ::
        (runFiles args fs (get_regex args) (decide (args.file.length > 1)) isT l2).2)
    ∧ (main args fs isT).1 = 0 := by
  have h0 : (run args fs isT).2 =
      runFiles args fs (get_regex args) (decide (args.file.length > 1)) isT
        args.file := rfl
  have hmid : ∀ sfx : Bool, runFiles args fs (get_regex args) sfx isT (f :: l2) =
      ((runFiles args fs (get_regex args) sfx isT l2).1,
       (f ++ (':' :: ' ' :: msg)) ::
        (runFiles args fs (get_regex args) sfx isT l2).2) := by
    intro sfx
    simp [runFiles, herr]
  refine ⟨?_, ?_, rfl⟩
  · rw [h0, hfile, runFiles_append, hmid]
  · rw [h0, hfile, runFiles_append, hmid]

theorem c9_read_error_witness :
    (argsTwo.file = [] ++ "f1".data :: ["f2".data]) ∧
    fsErr "f1".data = Except.error "boom".data ∧
    (main argsTwo fsErr false).1 = 0 ∧
    ((run argsTwo fsErr false).2.2 =
      (runFiles argsTwo fsErr (get_regex argsTwo)
          (decide (argsTwo.file.length > 1)) false []).2 ++
        ("f1".data ++ (':' :: ' ' :: "boom".data)) ::
        (runFiles argsTwo fsErr (get_regex argsTwo)
          (decide (argsTwo.file.length > 1)) false ["f2".data]).2) :=
  ⟨rfl, rfl,
    (c9_read_error argsTwo fsErr false "f1".data "boom".data [] ["f2".data]
      rfl rfl).2.2,
    (c9_read_error argsTwo fsErr false "f1".data "boom".data [] ["f2".data]
      rfl rfl).2.1⟩

/-- C10: for the empty pattern with `whole_words` and `invert` unset the
match decision is true on every line, the empty line included; hence in
Normal mode every line of a readable file is printed in order, and in count
mode the reported count is the file's total number of lines. -/
theorem c10_empty_pattern (args : Args) (hp : args.pattern = [])
    (hww : args.whole_words = false) (hinv : args.invert_match = false) :
    (∀ line : List Char, get_matches args line (get_regex args) = true)
    ∧ (args.count = false → args.files_with_matches = false →
        ∀ (f : List Char) (sf isT : Bool) (lines : List (List Char)),
        process_file f args (get_regex args) sf isT lines =
          (List.enumFrom 0 lines).map
            (fun p => print_match f p.1 p.2 (get_regex args)
              args.show_line_numbers sf (should_use_color args.color isT)))
    ∧ (args.count = true → args.files_with_matches = false →
        ∀ (f : List Char) (sf isT : Bool) (lines : List (List Char)),
        process_file f args (get_regex args) sf isT lines =
          [renderCount f sf lines.length]) := by
  have hall : ∀ line : List Char, get_matches args line (get_regex args) = true := by
    intro line
    simp only [get_matches, hinv, Bool.false_eq_true, if_false]
    cases line with
    | nil =>
      simp [CompiledRegex.is_match, searchFrom, matchAt, get_regex, hww, hp,
        listMatchesAt]
    | cons c rest =>
      simp [CompiledRegex.is_match, searchFrom, matchAt, get_regex, hww, hp,
        listMatchesAt]
  have hfilter : ∀ lines : List (List Char),
      (lines.filter (fun l => get_matches args l (get_regex args))) = lines :=
    fun lines => List.filter_eq_self.mpr (fun l _ => hall l)
  refine ⟨hall, ?_, ?_⟩
  · intro hc hl f sf isT lines
    rw [process_file_normal f args (get_regex args) sf isT lines hc hl]
    congr 1
    apply List.filter_eq_self.mpr
    intro p _
    exact hall p.2
  · intro hc hl f sf isT lines
    unfold process_file
    rw [processLines_count f args (get_regex args) sf _ hc hl lines 0 0]
    have hmc : matchCount args (get_regex args) lines = lines.length := by
      rw [matchCount, hfilter]
    rw [hmc]
    simp

theorem c10_empty_pattern_witness :
    ({ argsFoo with pattern := [] } : Args).pattern = [] ∧
    get_matches { argsFoo with pattern := [] } []
      (get_regex { argsFoo with pattern := [] }) = true ∧
    get_matches { argsFoo with pattern := [] } "baz".data
      (get_regex { argsFoo with pattern := [] }) = true :=
  ⟨rfl,
    (c10_empty_pattern { argsFoo with pattern := [] } rfl rfl rfl).1 [],
    (c10_empty_pattern { argsFoo with pattern := [] } rfl rfl rfl).1 "baz".data⟩

end RustyGrep
